import Mathlib

/-!
Verification of the media-converter repository (main.rs, movie_keyframe.rs,
statistics.rs) against its natural-language specification.

Modelling conventions:
* Machine floating-point arithmetic (f32/f64) is idealised as exact
  arithmetic over the rationals; the only genuinely irrational step,
  the square root inside stddev, is taken in the reals.
* u8 colour channels are modelled as Fin 256.
* The external ffmpeg demuxer/decoder is modelled by streams of packets,
  each packet carrying its stream index and the list of frames the decoder
  yields for it; every decoded frame carries its keyframe flag and the
  RGB image produced by the (identity-size) scaler.
* Strings are modelled as lists of characters.
-/

namespace MediaConv

/-- Welford online statistics accumulator, translated from statistics.rs.
The f64 fields are idealised as rationals. -/
structure OnlineStats where
  count : ℕ
  mean : ℚ
  m2 : ℚ
deriving DecidableEq

/-- OnlineStats::new, which is Default::default(), i.e. all fields zero. -/
def OnlineStats.new : OnlineStats := ⟨0, 0, 0⟩

/-- OnlineStats::update, one Welford step. -/
def OnlineStats.update (s : OnlineStats) (value : ℚ) : OnlineStats :=
  let count := s.count + 1
  let delta := value - s.mean
  let mean := s.mean + delta / (count : ℚ)
  let delta2 := value - mean
  ⟨count, mean, s.m2 + delta * delta2⟩

/-- OnlineStats::variance: m2 / (count - 1) when count > 1, else 0. -/
def OnlineStats.variance (s : OnlineStats) : ℚ :=
  if 1 < s.count then s.m2 / ((s.count : ℚ) - 1) else 0

/-- OnlineStats::stddev: square root of the variance, taken in ℝ. -/
noncomputable def OnlineStats.stddev (s : OnlineStats) : ℝ :=
  Real.sqrt ((s.variance : ℝ))

/-- Feeding a whole list of samples to a fresh accumulator. -/
def runUpdates (xs : List ℚ) : OnlineStats :=
  xs.foldl OnlineStats.update OnlineStats.new

/-- Reference arithmetic mean (division by zero yields 0 for the empty list). -/
def twoPassMean (xs : List ℚ) : ℚ := xs.sum / (xs.length : ℚ)

/-- Reference two-pass unbiased sample variance, modelled from the spec words:
first compute the arithmetic mean, then divide the sum of squared deviations
by n - 1; defined to be 0 when n ≤ 1. -/
def twoPassVariance (xs : List ℚ) : ℚ :=
  if 1 < xs.length then
    (xs.map (fun x => (x - twoPassMean xs) ^ 2)).sum / ((xs.length : ℚ) - 1)
  else 0

/-- Sum of squares of a list of rationals. -/
def sqSum (xs : List ℚ) : ℚ := (xs.map (fun x => x ^ 2)).sum

lemma sqSum_append (xs ys : List ℚ) : sqSum (xs ++ ys) = sqSum xs + sqSum ys := by
  simp [sqSum]

lemma sum_sub_sq (xs : List ℚ) (c : ℚ) :
    (xs.map (fun x => (x - c) ^ 2)).sum
      = sqSum xs - 2 * c * xs.sum + (xs.length : ℚ) * c ^ 2 := by
  induction xs with
  | nil => simp [sqSum]
  | cons a t ih =>
      simp only [List.map_cons, List.sum_cons, sqSum, List.length_cons] at *
      rw [ih]
      push_cast
      ring

lemma runUpdates_append_single (xs : List ℚ) (v : ℚ) :
    runUpdates (xs ++ [v]) = (runUpdates xs).update v := by
  simp [runUpdates, List.foldl_append]

lemma runUpdates_invariant (xs : List ℚ) :
    (runUpdates xs).count = xs.length ∧
    (runUpdates xs).mean = xs.sum / (xs.length : ℚ) ∧
    (runUpdates xs).m2 = sqSum xs - xs.sum ^ 2 / (xs.length : ℚ) := by
  induction xs using List.reverseRecOn with
  | nil => simp [runUpdates, OnlineStats.new, sqSum]
  | append_singleton t v ih =>
      obtain ⟨hc, hm, h2⟩ := ih
      rw [runUpdates_append_single]
      rcases Nat.eq_zero_or_pos t.length with h0 | hpos
      · have ht : t = [] := List.eq_nil_of_length_eq_zero h0
        subst ht
        simp [runUpdates, OnlineStats.update, OnlineStats.new, sqSum]
      · have hq0 : ((t.length : ℚ)) ≠ 0 := by
          exact_mod_cast Nat.pos_iff_ne_zero.mp hpos
        have hq1 : ((t.length : ℚ)) + 1 ≠ 0 := by positivity
        refine ⟨?_, ?_, ?_⟩
        · simp [OnlineStats.update, hc]
        · simp only [OnlineStats.update, hc, hm, List.sum_append, List.length_append,
            List.sum_cons, List.sum_nil, List.length_cons, List.length_nil]
          push_cast
          field_simp
          ring
        · simp only [OnlineStats.update, hc, hm, h2, sqSum_append, List.sum_append,
            List.length_append, List.sum_cons, List.sum_nil, List.length_cons,
            List.length_nil, sqSum, List.map_cons, List.map_nil]
          push_cast
          field_simp
          ring

lemma runUpdates_count (xs : List ℚ) : (runUpdates xs).count = xs.length :=
  (runUpdates_invariant xs).1

lemma runUpdates_mean (xs : List ℚ) : (runUpdates xs).mean = twoPassMean xs :=
  (runUpdates_invariant xs).2.1

lemma runUpdates_variance (xs : List ℚ) :
    (runUpdates xs).variance = twoPassVariance xs := by
  unfold OnlineStats.variance twoPassVariance
  rw [runUpdates_count, (runUpdates_invariant xs).2.2]
  by_cases h : 1 < xs.length
  · rw [if_pos h, if_pos h]
    have hq0 : ((xs.length : ℚ)) ≠ 0 := by
      have : 0 < xs.length := Nat.lt_of_lt_of_le Nat.one_pos (Nat.le_of_lt h)
      exact_mod_cast Nat.pos_iff_ne_zero.mp this
    rw [sum_sub_sq]
    unfold twoPassMean
    congr 1
    field_simp
    ring
  · rw [if_neg h, if_neg h]

lemma runUpdates_variance_small (xs : List ℚ) (h : xs.length ≤ 1) :
    (runUpdates xs).variance = 0 := by
  unfold OnlineStats.variance
  rw [runUpdates_count, if_neg (by omega)]

/-! Frame quality scorer, translated from compute_frame_score in
movie_keyframe.rs. -/

/-- One RGB pixel with u8 channels. -/
structure RGB where
  r : Fin 256
  g : Fin 256
  b : Fin 256
deriving DecidableEq

/-- A decoded RGB frame, as the sequence of its pixels. -/
abbrev Image := List RGB

/-- Luma of a pixel: 0.299 R + 0.587 G + 0.114 B, from the scorer loop. -/
def luma (p : RGB) : ℚ :=
  0.299 * ((p.r : ℕ) : ℚ) + 0.587 * ((p.g : ℕ) : ℚ) + 0.114 * ((p.b : ℕ) : ℚ)

/-- HSV saturation of normalized channel values rf gf bf: 0 when the maximum
channel is 0, else (max - min) / max, from the scorer loop. -/
def saturationOf (rf gf bf : ℚ) : ℚ :=
  if max (max rf gf) bf = 0 then 0
  else (max (max rf gf) bf - min (min rf gf) bf) / max (max rf gf) bf

/-- Saturation of a pixel with channels normalized to the unit interval. -/
def saturation (p : RGB) : ℚ :=
  saturationOf (((p.r : ℕ) : ℚ) / 255) (((p.g : ℕ) : ℚ) / 255) (((p.b : ℕ) : ℚ) / 255)

/-- The single streaming pass of the scorer: every pixel feeds its luma into
the brightness accumulator and its saturation into the saturation
accumulator. -/
def scoreStats (image : Image) : OnlineStats × OnlineStats :=
  image.foldl (fun s p => (s.1.update (luma p), s.2.update (saturation p)))
    (OnlineStats.new, OnlineStats.new)

/-- The brightness penalty factor 1 - |mean - 128| / 128 of the scorer. -/
def brightness_penalty (brightness_stats : OnlineStats) : ℚ :=
  1 - |brightness_stats.mean - 128| / 128

/-- compute_frame_score: stddev(brightness) * mean(saturation) * penalty. -/
noncomputable def compute_frame_score (image : Image) : ℝ :=
  (scoreStats image).1.stddev * (((scoreStats image).2.mean : ℝ))
    * ((brightness_penalty (scoreStats image).1 : ℝ))

/-- Frame score modelled from the spec words: brightness standard deviation
(two-pass), times mean saturation, times the mid-gray penalty. -/
noncomputable def specFrameScore (image : Image) : ℝ :=
  Real.sqrt ((twoPassVariance (image.map luma) : ℝ))
    * ((twoPassMean (image.map saturation) : ℝ))
    * (1 - |((twoPassMean (image.map luma) : ℝ)) - 128| / 128)

lemma foldl_pair_update (l : List RGB) (s1 s2 : OnlineStats) :
    l.foldl (fun s p => (s.1.update (luma p), s.2.update (saturation p))) (s1, s2)
      = ((l.map luma).foldl OnlineStats.update s1,
         (l.map saturation).foldl OnlineStats.update s2) := by
  induction l generalizing s1 s2 with
  | nil => rfl
  | cons a t ih => simp [ih]

lemma scoreStats_eq (image : Image) :
    scoreStats image
      = (runUpdates (image.map luma), runUpdates (image.map saturation)) := by
  unfold scoreStats runUpdates
  exact foldl_pair_update image OnlineStats.new OnlineStats.new

lemma compute_frame_score_eq_spec (image : Image) :
    compute_frame_score image = specFrameScore image := by
  unfold compute_frame_score specFrameScore OnlineStats.stddev brightness_penalty
  rw [scoreStats_eq]
  simp only [runUpdates_mean, runUpdates_variance]
  push_cast
  ring

lemma luma_nonneg (p : RGB) : 0 ≤ luma p := by
  unfold luma
  positivity

lemma luma_le (p : RGB) : luma p ≤ 255 := by
  have hr : ((p.r : ℕ) : ℚ) ≤ 255 := by exact_mod_cast Nat.le_of_lt_succ p.r.isLt
  have hg : ((p.g : ℕ) : ℚ) ≤ 255 := by exact_mod_cast Nat.le_of_lt_succ p.g.isLt
  have hb : ((p.b : ℕ) : ℚ) ≤ 255 := by exact_mod_cast Nat.le_of_lt_succ p.b.isLt
  unfold luma
  linarith

lemma saturationOf_mem (rf gf bf : ℚ) (hr : 0 ≤ rf) (hg : 0 ≤ gf) (hb : 0 ≤ bf) :
    0 ≤ saturationOf rf gf bf ∧ saturationOf rf gf bf ≤ 1 := by
  unfold saturationOf
  by_cases h : max (max rf gf) bf = 0
  · rw [if_pos h]
    norm_num
  · rw [if_neg h]
    have hmx0 : 0 ≤ max (max rf gf) bf := le_trans hb (le_max_right _ _)
    have hmxpos : 0 < max (max rf gf) bf := lt_of_le_of_ne hmx0 (Ne.symm h)
    have hmn0 : 0 ≤ min (min rf gf) bf := le_min (le_min hr hg) hb
    have hmnmx : min (min rf gf) bf ≤ max (max rf gf) bf :=
      le_trans (min_le_right _ _) (le_max_right _ _)
    constructor
    · exact div_nonneg (by linarith) hmx0
    · rw [div_le_one hmxpos]
      linarith

lemma saturation_mem (p : RGB) : 0 ≤ saturation p ∧ saturation p ≤ 1 := by
  unfold saturation
  exact saturationOf_mem _ _ _ (by positivity) (by positivity) (by positivity)

lemma mean_nonneg (xs : List ℚ) (h : ∀ x ∈ xs, 0 ≤ x) : 0 ≤ twoPassMean xs := by
  unfold twoPassMean
  exact div_nonneg (List.sum_nonneg h) (by positivity)

lemma mean_le_of_le (xs : List ℚ) (B : ℚ) (hB : 0 ≤ B) (h : ∀ x ∈ xs, x ≤ B) :
    twoPassMean xs ≤ B := by
  unfold twoPassMean
  rcases Nat.eq_zero_or_pos xs.length with h0 | hpos
  · have hnil : xs = [] := List.eq_nil_of_length_eq_zero h0
    subst hnil
    simpa using hB
  · have hq : (0 : ℚ) < (xs.length : ℚ) := by exact_mod_cast hpos
    rw [div_le_iff₀ hq]
    calc xs.sum ≤ xs.length • B := List.sum_le_card_nsmul xs B h
    _ = (xs.length : ℚ) * B := by rw [nsmul_eq_mul]
    _ = B * (xs.length : ℚ) := by ring

lemma mean_luma_mem (image : Image) :
    0 ≤ twoPassMean (image.map luma) ∧ twoPassMean (image.map luma) ≤ 255 := by
  constructor
  · refine mean_nonneg _ ?_
    intro x hx
    obtain ⟨p, _, rfl⟩ := List.mem_map.mp hx
    exact luma_nonneg p
  · refine mean_le_of_le _ 255 (by norm_num) ?_
    intro x hx
    obtain ⟨p, _, rfl⟩ := List.mem_map.mp hx
    exact luma_le p

lemma brightness_penalty_mem (image : Image) :
    0 ≤ brightness_penalty (scoreStats image).1
      ∧ brightness_penalty (scoreStats image).1 ≤ 1 := by
  rw [scoreStats_eq]
  unfold brightness_penalty
  rw [runUpdates_mean]
  obtain ⟨h0, h255⟩ := mean_luma_mem image
  have habs : |twoPassMean (image.map luma) - 128| ≤ 128 :=
    abs_le.mpr ⟨by linarith, by linarith⟩
  have habs0 : 0 ≤ |twoPassMean (image.map luma) - 128| := abs_nonneg _
  constructor
  · have : |twoPassMean (image.map luma) - 128| / 128 ≤ 1 := by
      rw [div_le_one (by norm_num : (0:ℚ) < 128)]
      exact habs
    linarith
  · have : 0 ≤ |twoPassMean (image.map luma) - 128| / 128 := by positivity
    linarith

lemma sat_mean_nonneg (image : Image) : 0 ≤ (scoreStats image).2.mean := by
  rw [scoreStats_eq]
  rw [runUpdates_mean]
  refine mean_nonneg _ ?_
  intro x hx
  obtain ⟨p, _, rfl⟩ := List.mem_map.mp hx
  exact (saturation_mem p).1

lemma compute_frame_score_nonneg (image : Image) : 0 ≤ compute_frame_score image := by
  unfold compute_frame_score
  refine mul_nonneg (mul_nonneg ?_ ?_) ?_
  · exact Real.sqrt_nonneg _
  · exact_mod_cast sat_mean_nonneg image
  · exact_mod_cast (brightness_penalty_mem image).1

lemma compute_frame_score_single (p : RGB) : compute_frame_score [p] = 0 := by
  unfold compute_frame_score OnlineStats.stddev
  rw [scoreStats_eq]
  have hv : (runUpdates [luma p]).variance = 0 :=
    runUpdates_variance_small _ (by simp)
  simp only [List.map_cons, List.map_nil]
  rw [hv]
  push_cast
  rw [Real.sqrt_zero, zero_mul, zero_mul]

/-! Video keyframe selector, translated from load_image_from_movie_keyframe
in movie_keyframe.rs.  The external ffmpeg demuxer/decoder is modelled by a
list of packets, each carrying its stream index and the decoded frames it
yields; the scaler keeps dimensions, so a frame directly carries its RGB
image. -/

/-- A decoded video frame: its keyframe flag and its image. -/
structure Frame (Img : Type) where
  isKey : Bool
  image : Img
deriving DecidableEq

/-- A demuxed packet: the index of the stream it belongs to and the frames
the decoder yields after being fed this packet. -/
structure Packet (Img : Type) where
  streamIndex : ℕ
  frames : List (Frame Img)
deriving DecidableEq

/-- Errors of the selector: the container has no video stream, or zero
keyframes were ever scored. -/
inductive MovieError where
  | noVideoStream
  | noSuitableFrame
deriving DecidableEq

/-- Load options plus the two scoring functions used by the selector.  score
stands for compute_frame_score and sharp for compute_frame_sharpness; they
are parameters so that the loop can be stated for any ordered field of
scores. -/
structure SelCfg (α : Type) (Img : Type) where
  score : Img → α
  sharp : Img → α
  max_keyframes : ℤ
  threshold_score : α
  threshold_sharpness : Option α

/-- Selection state of the scanning loop: best_frame, best_score and
frame_index of the source. -/
structure SelState (α : Type) (Img : Type) where
  bestFrame : Option Img
  bestScore : α
  frameIndex : ℤ
deriving DecidableEq

/-- Outcome of a partial scan: a frame returned immediately, a stop because
frame_index reached max_keyframes, or a continuation state. -/
inductive ScanStep (α : Type) (Img : Type) where
  | found (img : Img)
  | stopped (st : SelState α Img)
  | next (st : SelState α Img)
deriving DecidableEq

variable {α : Type} [LinearOrderedField α] {Img : Type}

/-- The early-return test of the loop body: score ≥ threshold_score, and when
a sharpness threshold is configured also sharpness ≥ that threshold. -/
def shouldReturn (cfg : SelCfg α Img) (img : Img) : Bool :=
  if cfg.threshold_score ≤ cfg.score img then
    match cfg.threshold_sharpness with
    | some t => decide (t ≤ cfg.sharp img)
    | none => true
  else false

/-- The non-returning tail of one keyframe iteration: record the frame as
best candidate when score > best_score, then increment frame_index. -/
def stepMiss (cfg : SelCfg α Img) (st : SelState α Img) (img : Img) : SelState α Img :=
  if st.bestScore < cfg.score img then
    ⟨some img, cfg.score img, st.frameIndex + 1⟩
  else
    ⟨st.bestFrame, st.bestScore, st.frameIndex + 1⟩

/-- One keyframe iteration of the scanning loop, including the break when
frame_index reaches max_keyframes. -/
def scanStep (cfg : SelCfg α Img) (st : SelState α Img) (img : Img) : ScanStep α Img :=
  if shouldReturn cfg img then .found img
  else
    if cfg.max_keyframes ≤ (stepMiss cfg st img).frameIndex then
      .stopped (stepMiss cfg st img)
    else .next (stepMiss cfg st img)

/-- The inner while loop over the decoded frames of one packet: only frames
flagged as keyframes are scored, all other frames are skipped. -/
def runFrames (cfg : SelCfg α Img) (st : SelState α Img) : List (Frame Img) → ScanStep α Img
  | [] => .next st
  | f :: fs =>
    if f.isKey then
      match scanStep cfg st f.image with
      | .found i => .found i
      | .stopped st2 => .stopped st2
      | .next st2 => runFrames cfg st2 fs
    else runFrames cfg st fs

/-- End of scanning: best_frame.ok_or(NoSuitableFrame). -/
def finish (st : SelState α Img) : Except MovieError Img :=
  match st.bestFrame with
  | some img => .ok img
  | none => .error .noSuitableFrame

/-- The outer packet loop of the selector, skipping packets of other
streams. -/
def runPackets (cfg : SelCfg α Img) (vidx : ℕ) (st : SelState α Img) :
    List (Packet Img) → Except MovieError Img
  | [] => finish st
  | p :: ps =>
    if p.streamIndex = vidx then
      match runFrames cfg st p.frames with
      | .found i => .ok i
      | .stopped st2 => finish st2
      | .next st2 =>
        if cfg.max_keyframes ≤ st2.frameIndex then finish st2
        else runPackets cfg vidx st2 ps
    else runPackets cfg vidx st ps

/-- The selector configuration with the real frame scorer, as used by
load_image_from_movie_keyframe. -/
noncomputable def movieCfg (sharp : Image → ℝ) (max_keyframes : ℤ)
    (threshold_score : ℝ) (threshold_sharpness : Option ℝ) : SelCfg ℝ Image :=
  ⟨compute_frame_score, sharp, max_keyframes, threshold_score, threshold_sharpness⟩

namespace MovieKeyframe

/-- movie_keyframe.rs load_image_from_movie_keyframe.  The ffmpeg stream
lookup is modelled by the optional best-video-stream index; failing it is the
No-video-stream error.  The scoring function is compute_frame_score; the
sharpness function stays a parameter because its Laplacian filter lives in
the external imageproc crate.  The scope-guarded decoder flush is pure
resource cleanup and does not affect the returned value. -/
noncomputable def load_image_from_movie_keyframe (sharp : Image → ℝ)
    (max_keyframes : ℤ) (threshold_score : ℝ) (threshold_sharpness : Option ℝ)
    (videoStreamIndex : Option ℕ) (packets : List (Packet Image)) :
    Except MovieError Image :=
  match videoStreamIndex with
  | none => .error .noVideoStream
  | some vidx =>
      runPackets (movieCfg sharp max_keyframes threshold_score threshold_sharpness)
        vidx ⟨none, -1, 0⟩ packets

end MovieKeyframe

/-- The images of the keyframes in a frame list, in order. -/
def keyImages : List (Frame Img) → List Img
  | [] => []
  | f :: fs => if f.isKey then f.image :: keyImages fs else keyImages fs

/-- All keyframe images carried by the packets of the selected stream, in
decode order. -/
def flattenKF (vidx : ℕ) : List (Packet Img) → List Img
  | [] => []
  | p :: ps =>
    if p.streamIndex = vidx then keyImages p.frames ++ flattenKF vidx ps
    else flattenKF vidx ps

/-- Scanning a flat list of keyframe images. -/
def scanList (cfg : SelCfg α Img) (st : SelState α Img) : List Img → ScanStep α Img
  | [] => .next st
  | img :: rest =>
    match scanStep cfg st img with
    | .found i => .found i
    | .stopped st2 => .stopped st2
    | .next st2 => scanList cfg st2 rest

/-- Result of a complete scan of a flat keyframe list. -/
def scanAll (cfg : SelCfg α Img) (st : SelState α Img) (l : List Img) :
    Except MovieError Img :=
  match scanList cfg st l with
  | .found i => .ok i
  | .stopped st2 => finish st2
  | .next st2 => finish st2

lemma stepMiss_frameIndex (cfg : SelCfg α Img) (st : SelState α Img) (img : Img) :
    (stepMiss cfg st img).frameIndex = st.frameIndex + 1 := by
  unfold stepMiss
  split <;> rfl

lemma scanStep_next_lt {cfg : SelCfg α Img} {st st2 : SelState α Img} {img : Img}
    (h : scanStep cfg st img = .next st2) :
    st2.frameIndex < cfg.max_keyframes := by
  unfold scanStep at h
  by_cases h1 : shouldReturn cfg img
  · simp [h1] at h
  · simp only [h1, Bool.false_eq_true, if_false] at h
    by_cases h2 : cfg.max_keyframes ≤ (stepMiss cfg st img).frameIndex
    · simp [h2] at h
    · simp only [h2, if_false, ScanStep.next.injEq] at h
      rw [← h]
      exact not_le.mp h2

lemma scanStep_of_not_return {cfg : SelCfg α Img} {st : SelState α Img} {img : Img}
    (hx : shouldReturn cfg img = false)
    (hlt : st.frameIndex + 1 < cfg.max_keyframes) :
    scanStep cfg st img = .next (stepMiss cfg st img) := by
  unfold scanStep
  rw [hx]
  have hc : ¬ (cfg.max_keyframes ≤ (stepMiss cfg st img).frameIndex) := by
    rw [stepMiss_frameIndex]
    omega
  simp [hc]

lemma scanStep_of_not_return_stop {cfg : SelCfg α Img} {st : SelState α Img} {img : Img}
    (hx : shouldReturn cfg img = false)
    (hge : cfg.max_keyframes ≤ st.frameIndex + 1) :
    scanStep cfg st img = .stopped (stepMiss cfg st img) := by
  unfold scanStep
  rw [hx]
  have hc : cfg.max_keyframes ≤ (stepMiss cfg st img).frameIndex := by
    rw [stepMiss_frameIndex]
    omega
  simp [hc]

lemma scanList_next_lt {cfg : SelCfg α Img} :
    ∀ {l : List Img} {st st2 : SelState α Img},
      st.frameIndex < cfg.max_keyframes → scanList cfg st l = .next st2 →
      st2.frameIndex < cfg.max_keyframes := by
  intro l
  induction l with
  | nil =>
      intro st st2 hlt h
      unfold scanList at h
      cases h
      exact hlt
  | cons a t ih =>
      intro st st2 hlt h
      unfold scanList at h
      cases hs : scanStep cfg st a with
      | found i => rw [hs] at h; cases h
      | stopped s => rw [hs] at h; cases h
      | next s =>
          rw [hs] at h
          exact ih (scanStep_next_lt hs) h

lemma scanList_append (cfg : SelCfg α Img) (a : List Img) :
    ∀ (b : List Img) (st : SelState α Img),
      scanList cfg st (a ++ b) = match scanList cfg st a with
        | .found i => .found i
        | .stopped st2 => .stopped st2
        | .next st2 => scanList cfg st2 b := by
  induction a with
  | nil => intro b st; simp [scanList]
  | cons x t ih =>
      intro b st
      simp only [List.cons_append, scanList]
      cases hs : scanStep cfg st x <;> simp [ih]

lemma runFrames_eq_scanList (cfg : SelCfg α Img) :
    ∀ (fs : List (Frame Img)) (st : SelState α Img),
      runFrames cfg st fs = scanList cfg st (keyImages fs) := by
  intro fs
  induction fs with
  | nil => intro st; rfl
  | cons f t ih =>
      intro st
      by_cases hk : f.isKey
      · simp only [runFrames, keyImages, hk, if_true, scanList]
        cases hs : scanStep cfg st f.image <;> simp [ih]
      · simp [runFrames, keyImages, hk, ih]

lemma runPackets_eq_scanAll (cfg : SelCfg α Img) (vidx : ℕ) :
    ∀ (ps : List (Packet Img)) (st : SelState α Img),
      st.frameIndex < cfg.max_keyframes →
      runPackets cfg vidx st ps = scanAll cfg st (flattenKF vidx ps) := by
  intro ps
  induction ps with
  | nil => intro st hlt; rfl
  | cons p ps ih =>
      intro st hlt
      by_cases hidx : p.streamIndex = vidx
      · have hflat : flattenKF vidx (p :: ps)
            = keyImages p.frames ++ flattenKF vidx ps := by
          simp [flattenKF, hidx]
        rw [hflat]
        simp only [runPackets, hidx, if_true]
        rw [runFrames_eq_scanList]
        unfold scanAll
        rw [scanList_append]
        cases hs : scanList cfg st (keyImages p.frames) with
        | found i => simp
        | stopped st2 => simp
        | next st2 =>
            have hlt2 := scanList_next_lt hlt hs
            simp only [if_neg (not_le.mpr hlt2)]
            rw [ih st2 hlt2]
            unfold scanAll
            rfl
      · simp only [runPackets, hidx, if_false, flattenKF]
        exact ih st hlt

lemma shouldReturn_eq_false_iff (cfg : SelCfg α Img) (img : Img) :
    shouldReturn cfg img = false
      ↔ (cfg.score img < cfg.threshold_score
         ∨ ∃ t, cfg.threshold_sharpness = some t ∧ cfg.sharp img < t) := by
  unfold shouldReturn
  by_cases h1 : cfg.threshold_score ≤ cfg.score img
  · rw [if_pos h1]
    cases hts : cfg.threshold_sharpness with
    | none => simp [not_lt.mpr h1]
    | some t => simp [not_lt.mpr h1, not_le]
  · rw [if_neg h1]
    simp [not_le.mp h1]

lemma shouldReturn_eq_true_iff (cfg : SelCfg α Img) (img : Img) :
    shouldReturn cfg img = true
      ↔ (cfg.threshold_score ≤ cfg.score img
         ∧ ∀ t, cfg.threshold_sharpness = some t → t ≤ cfg.sharp img) := by
  unfold shouldReturn
  by_cases h1 : cfg.threshold_score ≤ cfg.score img
  · rw [if_pos h1]
    cases hts : cfg.threshold_sharpness with
    | none => simp [h1]
    | some t => simp [h1]
  · rw [if_neg h1]
    simp [h1]

lemma foldl_stepMiss_frameIndex (cfg : SelCfg α Img) :
    ∀ (l : List Img) (st : SelState α Img),
      (l.foldl (stepMiss cfg) st).frameIndex = st.frameIndex + l.length := by
  intro l
  induction l with
  | nil => intro st; simp
  | cons x t ih =>
      intro st
      simp only [List.foldl_cons, ih, stepMiss_frameIndex, List.length_cons]
      push_cast
      ring

lemma scanList_skip (cfg : SelCfg α Img) :
    ∀ (pre l : List Img) (st : SelState α Img),
      (∀ x ∈ pre, shouldReturn cfg x = false) →
      st.frameIndex + pre.length < cfg.max_keyframes →
      scanList cfg st (pre ++ l) = scanList cfg (pre.foldl (stepMiss cfg) st) l := by
  intro pre
  induction pre with
  | nil => intro l st h hf; simp
  | cons x t ih =>
      intro l st h hf
      have hx : shouldReturn cfg x = false := h x (List.mem_cons_self x t)
      have hlen : st.frameIndex + 1 < cfg.max_keyframes := by
        simp only [List.length_cons] at hf
        push_cast at hf
        omega
      have hstep := scanStep_of_not_return hx hlen
      simp only [List.cons_append, scanList, hstep, List.foldl_cons]
      refine ih l (stepMiss cfg st x) (fun y hy => h y (List.mem_cons_of_mem x hy)) ?_
      rw [stepMiss_frameIndex]
      simp only [List.length_cons] at hf
      push_cast at hf ⊢
      omega

lemma scanAll_no_return (cfg : SelCfg α Img) :
    ∀ (l : List Img) (st : SelState α Img),
      st.frameIndex < cfg.max_keyframes →
      (∀ x ∈ l.take ((cfg.max_keyframes - st.frameIndex).toNat),
          shouldReturn cfg x = false) →
      scanAll cfg st l
        = finish ((l.take ((cfg.max_keyframes - st.frameIndex).toNat)).foldl
            (stepMiss cfg) st) := by
  intro l
  induction l with
  | nil => intro st hlt h; simp [scanAll, scanList, List.take_nil]
  | cons x t ih =>
      intro st hlt h
      obtain ⟨m, hm⟩ : ∃ m, (cfg.max_keyframes - st.frameIndex).toNat = m + 1 :=
        ⟨(cfg.max_keyframes - st.frameIndex).toNat - 1, by omega⟩
      rw [hm] at h ⊢
      simp only [List.take_succ_cons] at h ⊢
      have hx : shouldReturn cfg x = false := h x (List.mem_cons_self _ _)
      by_cases hcap : cfg.max_keyframes ≤ st.frameIndex + 1
      · have hm0 : m = 0 := by omega
        subst hm0
        have hstep := scanStep_of_not_return_stop hx hcap
        have hrw : scanList cfg st (x :: t) = .stopped (stepMiss cfg st x) := by
          unfold scanList
          rw [hstep]
        unfold scanAll
        rw [hrw]
        simp
      · have hlt1 : st.frameIndex + 1 < cfg.max_keyframes := by omega
        have hstep := scanStep_of_not_return hx hlt1
        have hrw : scanList cfg st (x :: t) = scanList cfg (stepMiss cfg st x) t := by
          unfold scanList
          rw [hstep]
          cases t <;> rfl
        have hgoal : scanAll cfg st (x :: t) = scanAll cfg (stepMiss cfg st x) t := by
          unfold scanAll
          rw [hrw]
        rw [hgoal, List.foldl_cons]
        have hlt2 : (stepMiss cfg st x).frameIndex < cfg.max_keyframes := by
          rw [stepMiss_frameIndex]; omega
        have hm2 : (cfg.max_keyframes - (stepMiss cfg st x).frameIndex).toNat = m := by
          rw [stepMiss_frameIndex]; omega
        rw [← hm2]
        exact ih (stepMiss cfg st x) hlt2 (by
          rw [hm2]
          intro y hy
          exact h y (List.mem_cons_of_mem x hy))

lemma foldl_stepMiss_best (cfg : SelCfg α Img) :
    ∀ (l : List Img) (st : SelState α Img),
      ((l.foldl (stepMiss cfg) st).bestFrame = st.bestFrame ∧
       (l.foldl (stepMiss cfg) st).bestScore = st.bestScore ∧
       ∀ x ∈ l, cfg.score x ≤ st.bestScore)
      ∨ (∃ img, img ∈ l ∧ (l.foldl (stepMiss cfg) st).bestFrame = some img ∧
          (l.foldl (stepMiss cfg) st).bestScore = cfg.score img ∧
          st.bestScore < cfg.score img ∧
          ∀ x ∈ l, cfg.score x ≤ cfg.score img) := by
  intro l
  induction l with
  | nil => intro st; left; simp
  | cons x t ih =>
      intro st
      by_cases hx : st.bestScore < cfg.score x
      · have hstep : stepMiss cfg st x = ⟨some x, cfg.score x, st.frameIndex + 1⟩ := by
          unfold stepMiss
          rw [if_pos hx]
        rw [List.foldl_cons, hstep]
        rcases ih ⟨some x, cfg.score x, st.frameIndex + 1⟩ with
          ⟨h1, h2, h3⟩ | ⟨img, hmem, h1, h2, h3, h4⟩
        · right
          refine ⟨x, List.mem_cons_self _ _, h1, h2, hx, ?_⟩
          intro y hy
          rcases List.mem_cons.mp hy with rfl | hy
          · exact le_refl _
          · exact h3 y hy
        · right
          refine ⟨img, List.mem_cons_of_mem _ hmem, h1, h2, lt_trans hx h3, ?_⟩
          intro y hy
          rcases List.mem_cons.mp hy with rfl | hy
          · exact le_of_lt h3
          · exact h4 y hy
      · have hstep : stepMiss cfg st x
            = ⟨st.bestFrame, st.bestScore, st.frameIndex + 1⟩ := by
          unfold stepMiss
          rw [if_neg hx]
        rw [List.foldl_cons, hstep]
        rcases ih ⟨st.bestFrame, st.bestScore, st.frameIndex + 1⟩ with
          ⟨h1, h2, h3⟩ | ⟨img, hmem, h1, h2, h3, h4⟩
        · left
          refine ⟨h1, h2, ?_⟩
          intro y hy
          rcases List.mem_cons.mp hy with rfl | hy
          · exact not_lt.mp hx
          · exact h3 y hy
        · right
          refine ⟨img, List.mem_cons_of_mem _ hmem, h1, h2, h3, ?_⟩
          intro y hy
          rcases List.mem_cons.mp hy with rfl | hy
          · exact le_of_lt (lt_of_le_of_lt (not_lt.mp hx) h3)
          · exact h4 y hy

/-! The main.rs side: its own movie loader, the decode dispatcher, the API
error mapping, the size presets and the key-to-path resolution. -/

namespace Main

/-- Messages of the Decoding errors built in main.rs; the source carries
them as strings inside image ImageError Decoding values, modelled here as an
enumeration.  Each constructor corresponds to one source message. -/
inductive DecodeMsg where
  /-- Failed to open video -/
  | failedToOpenVideo
  /-- No video stream found -/
  | noVideoStream
  /-- Failed to get codec context -/
  | failedCodecContext
  /-- Failed to get video decoder -/
  | failedVideoDecoder
  /-- No frame extracted -/
  | noFrameExtracted
  /-- Failed to parse PSD -/
  | failedToParsePsd
deriving DecidableEq

/-- The image crate error kinds that main.rs constructs or propagates. -/
inductive ImageError where
  | decoding (msg : DecodeMsg)
  | limits
deriving DecidableEq

/-- The packet loop of the main.rs load_image_from_movie_keyframe: the first
decoded frame of the selected stream is returned unconditionally, with no
keyframe filter and no scoring; reaching the end of the stream is the
No-frame-extracted error. -/
def loopPackets {Img : Type} (vidx : ℕ) : List (Packet Img) → Except ImageError Img
  | [] => .error (.decoding .noFrameExtracted)
  | p :: ps =>
    if p.streamIndex = vidx then
      match p.frames with
      | [] => loopPackets vidx ps
      | f :: _ => .ok f.image
    else loopPackets vidx ps

/-- main.rs load_image_from_movie_keyframe: locate the best video stream
(a Decoding error when there is none), then return the first decoded
frame. -/
def load_image_from_movie_keyframe {Img : Type} (videoStreamIndex : Option ℕ)
    (packets : List (Packet Img)) : Except ImageError Img :=
  match videoStreamIndex with
  | none => .error (.decoding .noVideoStream)
  | some vidx => loopPackets vidx packets

/-- A media file as the dispatcher sees it: the path extension, the demuxed
video stream, and the results of the two external decode strategies (the
raster codec of the image crate and the PSD parser). -/
structure MediaFile (Img : Type) where
  ext : List Char
  videoStreamIndex : Option ℕ
  packets : List (Packet Img)
  rasterDecode : Except ImageError Img
  psdDecode : Except ImageError Img

/-- main.rs load_image: pure routing on the lowercased file extension. -/
def load_image {Img : Type} (f : MediaFile Img) : Except ImageError Img :=
  match f.ext.map Char.toLower with
  | ['p', 's', 'd'] => f.psdDecode
  | ['m', 'p', '4'] | ['w', 'e', 'b', 'm'] | ['m', 'o', 'v'] =>
      load_image_from_movie_keyframe f.videoStreamIndex f.packets
  | _ => f.rasterDecode

/-- All decoded frame images of the selected stream in decode order,
ignoring keyframe flags. -/
def decodedImages {Img : Type} (vidx : ℕ) : List (Packet Img) → List Img
  | [] => []
  | p :: ps =>
    if p.streamIndex = vidx then p.frames.map Frame.image ++ decodedImages vidx ps
    else decodedImages vidx ps

lemma loopPackets_eq_head {Img : Type} (vidx : ℕ) :
    ∀ ps : List (Packet Img),
      loopPackets vidx ps = match (decodedImages vidx ps).head? with
        | some img => .ok img
        | none => .error (.decoding .noFrameExtracted) := by
  intro ps
  induction ps with
  | nil => rfl
  | cons p ps ih =>
      by_cases hidx : p.streamIndex = vidx
      · cases hf : p.frames with
        | nil => simp [loopPackets, decodedImages, hidx, hf, ih]
        | cons f fs => simp [loopPackets, decodedImages, hidx, hf]
      · simp [loopPackets, decodedImages, hidx, ih]

/-- The ApiError type of main.rs. -/
inductive ApiError where
  | notFound
  | invalidKey (key : List Char)
  | failedToDecode (err : ImageError)
  | failedToEncode (err : ImageError)
deriving DecidableEq

/-- ResponseError status_code for ApiError. -/
def ApiError.status_code : ApiError → ℕ
  | .notFound => 404
  | .invalidKey _ => 404
  | .failedToDecode _ => 500
  | .failedToEncode _ => 500

/-- load_image_handle_api_error: wrap any decode failure in
FailedToDecode. -/
def load_image_handle_api_error {Img : Type} (f : MediaFile Img) :
    Except ApiError Img :=
  (load_image f).mapError ApiError.failedToDecode

/-- The thumbnail size presets of main.rs. -/
inductive Size where
  | Small
  | Medium
  | Large
deriving DecidableEq

/-- Size::from_str: every string other than small and large gives Medium. -/
def Size.from_str (s : List Char) : Size :=
  match s with
  | ['s', 'm', 'a', 'l', 'l'] => Size.Small
  | ['l', 'a', 'r', 'g', 'e'] => Size.Large
  | _ => Size.Medium

/-- Size::dimensions, the fixed bounding boxes. -/
def Size.dimensions : Size → ℕ × ℕ
  | Size.Small => (120, 120)
  | Size.Medium => (300, 300)
  | Size.Large => (600, 600)

/-- The size-parameter handling of the thumbnail handler: map Size::from_str
over the optional query parameter and default to Medium. -/
def sizeFromQuery (q : Option (List Char)) : Size :=
  (q.map Size.from_str).getD Size.Medium

/-- Rust char is_ascii_hexdigit. -/
def is_ascii_hexdigit (c : Char) : Bool :=
  ('0' ≤ c && c ≤ '9') || ('a' ≤ c && c ≤ 'f') || ('A' ≤ c && c ≤ 'F')

/-- Rust char is_ascii_alphanumeric. -/
def is_ascii_alphanumeric (c : Char) : Bool :=
  ('0' ≤ c && c ≤ '9') || ('a' ≤ c && c ≤ 'z') || ('A' ≤ c && c ≤ 'Z')

/-- Rust str split_once at the first dot: the part before the first dot
paired with the part after it. -/
def splitOnce : List Char → Option (List Char × List Char)
  | [] => none
  | c :: rest =>
    if c = '.' then some ([], rest)
    else (splitOnce rest).map (fun p => (c :: p.1, p.2))

/-- main.rs path_from_key.  Filesystem paths are modelled as lists of path
components; on success the two-hex-character shard directory and the full
key are appended under the base path.  All three checks happen before any
path is built, mirroring rejection before any filesystem access. -/
def path_from_key (base_path : List (List Char)) (key : List Char) :
    Except ApiError (List (List Char)) :=
  if (((splitOnce key).getD (key, [])).1).length ≠ 32 then .error (.invalidKey key)
  else if ¬ ((((splitOnce key).getD (key, [])).2).all is_ascii_alphanumeric) then
    .error (.invalidKey key)
  else if ¬ ((((splitOnce key).getD (key, [])).1).all is_ascii_hexdigit) then
    .error (.invalidKey key)
  else .ok (base_path ++ [(((splitOnce key).getD (key, [])).1).take 2, key])

/-- The key grammar of the spec: a 32-hex-character hash, optionally
followed by a dot and an alphanumeric extension (the extension may be
empty, which is exactly what the vacuous all-alphanumeric check of the
source accepts). -/
def keyGrammar (key : List Char) : Bool :=
  ((key.take 32).length == 32) && (key.take 32).all is_ascii_hexdigit &&
    (match key.drop 32 with
     | [] => true
     | c :: ext => (c == '.') && ext.all is_ascii_alphanumeric)

/-- A path component that cannot make the resolved path escape the base
directory: nonempty, no dot directory, and free of path separators. -/
def safeComponent (comp : List Char) : Prop :=
  comp ≠ [] ∧ comp ≠ ['.'] ∧ comp ≠ ['.', '.']
    ∧ ∀ c ∈ comp, c ≠ '/' ∧ c ≠ '\\'

lemma splitOnce_none : ∀ {s : List Char}, splitOnce s = none → '.' ∉ s := by
  intro s
  induction s with
  | nil => intro _ h; simp at h
  | cons c rest ih =>
      intro h hmem
      unfold splitOnce at h
      by_cases hc : c = '.'
      · rw [if_pos hc] at h; cases h
      · rw [if_neg hc] at h
        rcases List.mem_cons.mp hmem with heq | hmem2
        · exact hc heq.symm
        · cases hso : splitOnce rest with
          | none => exact ih hso hmem2
          | some p => rw [hso] at h; simp at h

lemma splitOnce_some : ∀ {s a b : List Char}, splitOnce s = some (a, b) →
    s = a ++ '.' :: b ∧ '.' ∉ a := by
  intro s
  induction s with
  | nil => intro a b h; cases h
  | cons c rest ih =>
      intro a b h
      unfold splitOnce at h
      by_cases hc : c = '.'
      · rw [if_pos hc] at h
        cases h
        subst hc
        exact ⟨rfl, by simp⟩
      · rw [if_neg hc] at h
        cases hso : splitOnce rest with
        | none => rw [hso] at h; simp at h
        | some p =>
            rw [hso] at h
            simp only [Option.map_some', Option.some.injEq, Prod.mk.injEq] at h
            obtain ⟨ha, hb⟩ := h
            subst ha
            subst hb
            obtain ⟨hs, hna⟩ := @ih p.1 p.2 (by rw [hso])
            constructor
            · rw [List.cons_append, ← hs]
            · intro hm
              rcases List.mem_cons.mp hm with heq | hm2
              · exact hc heq.symm
              · exact hna hm2

lemma keyGrammar_true_iff (key : List Char) :
    keyGrammar key = true
      ↔ (key.take 32).length = 32
        ∧ (∀ c ∈ key.take 32, is_ascii_hexdigit c = true)
        ∧ (key.drop 32 = []
           ∨ ∃ ext, key.drop 32 = '.' :: ext
               ∧ ∀ c ∈ ext, is_ascii_alphanumeric c = true) := by
  unfold keyGrammar
  cases hd : key.drop 32 with
  | nil =>
      simp [List.all_eq_true]
  | cons c ext =>
      simp only [Bool.and_eq_true, beq_iff_eq, List.all_eq_true]
      constructor
      · rintro ⟨⟨h1, h2⟩, h3, h4⟩
        exact ⟨h1, h2, Or.inr ⟨ext, by rw [h3], h4⟩⟩
      · rintro ⟨h1, h2, h3 | ⟨ext2, heq, h4⟩⟩
        · cases h3
        · obtain ⟨rfl, rfl⟩ : c = '.' ∧ ext = ext2 := by
            have := List.cons.inj heq
            exact ⟨this.1, this.2⟩
          exact ⟨⟨h1, h2⟩, rfl, h4⟩

lemma hex_char_safe {c : Char} (h : is_ascii_hexdigit c = true) :
    c ≠ '/' ∧ c ≠ '\\' ∧ c ≠ '.' := by
  refine ⟨?_, ?_, ?_⟩ <;> rintro rfl <;> exact absurd h (by decide)

lemma alnum_char_safe {c : Char} (h : is_ascii_alphanumeric c = true) :
    c ≠ '/' ∧ c ≠ '\\' := by
  refine ⟨?_, ?_⟩ <;> rintro rfl <;> exact absurd h (by decide)

lemma path_from_key_ok_of_grammar (base_path : List (List Char)) {key : List Char}
    (h : keyGrammar key = true) :
    path_from_key base_path key = .ok (base_path ++ [key.take 2, key]) := by
  obtain ⟨g1, g2, g3⟩ := (keyGrammar_true_iff key).mp h
  have hklen : 32 ≤ key.length := by
    have := List.length_take 32 key
    omega
  cases hso : splitOnce key with
  | none =>
      have hnd : '.' ∉ key := splitOnce_none hso
      have hd : key.drop 32 = [] := by
        rcases g3 with hd | ⟨ext, hd, _⟩
        · exact hd
        · exfalso
          apply hnd
          have hmem : '.' ∈ key.drop 32 := by
            rw [hd]; exact List.mem_cons_self _ _
          exact List.drop_subset _ _ hmem
      have hlen32 : key.length = 32 := by
        have := List.drop_eq_nil_iff.mp hd
        omega
      have htake : key.take 32 = key := List.take_of_length_le (by omega)
      unfold path_from_key
      rw [hso]
      simp only [Option.getD_none]
      rw [if_neg (by omega : ¬ key.length ≠ 32)]
      rw [if_neg (by simp : ¬ ¬ (([] : List Char).all is_ascii_alphanumeric))]
      rw [if_neg ?hex]
      case hex =>
        rw [not_not, List.all_eq_true]
        intro c hc
        exact g2 c (by rw [htake]; exact hc)
  | some p =>
      obtain ⟨a, b⟩ := p
      obtain ⟨hkey, hnda⟩ := splitOnce_some hso
      have ha32 : a.length = 32 := by
        rcases lt_trichotomy a.length 32 with hlt | heq | hgt
        · exfalso
          obtain ⟨m, hm⟩ : ∃ m, 32 - a.length = m + 1 := ⟨31 - a.length, by omega⟩
          have htk : key.take 32 = a ++ '.' :: b.take m := by
            rw [hkey, List.take_append_eq_append_take,
              List.take_of_length_le (by omega), hm]
            rfl
          have hmem : '.' ∈ key.take 32 := by
            rw [htk]
            exact List.mem_append_right _ (List.mem_cons_self _ _)
          exact absurd (g2 _ hmem) (by decide)
        · exact heq
        · exfalso
          have hdr : key.drop 32 = a.drop 32 ++ '.' :: b := by
            rw [hkey, List.drop_append_eq_append_drop,
              Nat.sub_eq_zero_of_le (by omega), List.drop_zero]
          have hne : a.drop 32 ≠ [] := by
            intro hz
            have := List.drop_eq_nil_iff.mp hz
            omega
          obtain ⟨c, t, hct⟩ := List.exists_cons_of_ne_nil hne
          have hcmem : c ∈ a := List.drop_subset _ _ (by
            rw [hct]; exact List.mem_cons_self _ _)
          rcases g3 with hd | ⟨ext, hd, _⟩
          · rw [hdr, hct] at hd
            cases hd
          · rw [hdr, hct] at hd
            have : c = '.' := (List.cons.inj hd).1
            exact hnda (this ▸ hcmem)
      have htake : key.take 32 = a := by
        rw [hkey]
        exact List.take_left' ha32
      have hdrop : key.drop 32 = '.' :: b := by
        rw [hkey]
        exact List.drop_left' ha32
      have hbal : ∀ c ∈ b, is_ascii_alphanumeric c = true := by
        rcases g3 with hd | ⟨ext, hd, halnum⟩
        · rw [hdrop] at hd; cases hd
        · rw [hdrop] at hd
          have : b = ext := (List.cons.inj hd).2
          rw [this]
          exact halnum
      have htake2 : a.take 2 = key.take 2 := by
        rw [hkey, List.take_append_of_le_length (by omega)]
      unfold path_from_key
      rw [hso]
      simp only [Option.getD_some]
      rw [if_neg (by omega : ¬ a.length ≠ 32)]
      rw [if_neg (by rw [not_not, List.all_eq_true]; exact hbal)]
      rw [if_neg ?hex2]
      case hex2 =>
        rw [not_not, List.all_eq_true]
        intro c hc
        exact g2 c (by rw [htake]; exact hc)
      rw [htake2]

lemma path_from_key_error_of_not_grammar (base_path : List (List Char))
    {key : List Char} (h : keyGrammar key = false) :
    path_from_key base_path key = .error (.invalidKey key) := by
  cases hso : splitOnce key with
  | none =>
      have hnd : '.' ∉ key := splitOnce_none hso
      unfold path_from_key
      rw [hso]
      simp only [Option.getD_none]
      by_cases h1 : key.length ≠ 32
      · rw [if_pos h1]
      · rw [if_neg h1]
        rw [if_neg (by simp : ¬ ¬ (([] : List Char).all is_ascii_alphanumeric))]
        by_cases h3 : key.all is_ascii_hexdigit
        · exfalso
          have hg : keyGrammar key = true := by
            rw [keyGrammar_true_iff]
            have hlen : key.length = 32 := by omega
            have htake : key.take 32 = key := List.take_of_length_le (by omega)
            refine ⟨by rw [htake, hlen], ?_, Or.inl ?_⟩
            · intro c hc
              exact List.all_eq_true.mp h3 c (by rw [htake] at hc; exact hc)
            · exact List.drop_of_length_le (by omega)
          rw [hg] at h
          cases h
        · rw [if_pos h3]
  | some p =>
      obtain ⟨a, b⟩ := p
      obtain ⟨hkey, hnda⟩ := splitOnce_some hso
      unfold path_from_key
      rw [hso]
      simp only [Option.getD_some]
      by_cases h1 : a.length ≠ 32
      · rw [if_pos h1]
      · rw [if_neg h1]
        have ha32 : a.length = 32 := by omega
        by_cases h2 : b.all is_ascii_alphanumeric
        · rw [if_neg (by rw [not_not]; exact h2)]
          by_cases h3 : a.all is_ascii_hexdigit
          · exfalso
            have hg : keyGrammar key = true := by
              rw [keyGrammar_true_iff]
              have htake : key.take 32 = a := by
                rw [hkey]; exact List.take_left' ha32
              have hdrop : key.drop 32 = '.' :: b := by
                rw [hkey]; exact List.drop_left' ha32
              refine ⟨by rw [htake, ha32], ?_, Or.inr ⟨b, hdrop, ?_⟩⟩
              · intro c hc
                exact List.all_eq_true.mp h3 c (by rw [htake] at hc; exact hc)
              · exact List.all_eq_true.mp h2
            rw [hg] at h
            cases h
          · rw [if_pos h3]
        · rw [if_pos h2]

lemma grammar_safeComponents {key : List Char} (h : keyGrammar key = true) :
    safeComponent (key.take 2) ∧ safeComponent key := by
  obtain ⟨g1, g2, g3⟩ := (keyGrammar_true_iff key).mp h
  have hklen : 32 ≤ key.length := by
    have := List.length_take 32 key
    omega
  have htake2sub : ∀ c ∈ key.take 2, c ∈ key.take 32 := by
    intro c hc
    have h22 : key.take 2 = (key.take 32).take 2 := by
      rw [List.take_take]
      norm_num
    rw [h22] at hc
    exact List.take_subset _ _ hc
  have h2len : (key.take 2).length = 2 := by
    rw [List.length_take]
    omega
  constructor
  · refine ⟨?_, ?_, ?_, ?_⟩
    · intro hnil; rw [hnil] at h2len; simp at h2len
    · intro hdot; rw [hdot] at h2len; simp at h2len
    · intro hdd
      have hmem : '.' ∈ key.take 2 := by
        rw [hdd]; exact List.mem_cons_self _ _
      exact absurd (g2 _ (htake2sub _ hmem)) (by decide)
    · intro c hc
      obtain ⟨h1, h2, _⟩ := hex_char_safe (g2 _ (htake2sub _ hc))
      exact ⟨h1, h2⟩
  · refine ⟨?_, ?_, ?_, ?_⟩
    · intro hnil; rw [hnil] at hklen; simp at hklen
    · intro hk; rw [hk] at hklen; simp at hklen
    · intro hk; rw [hk] at hklen; simp at hklen
    · intro c hc
      have hsplit : c ∈ key.take 32 ++ key.drop 32 := by
        rw [List.take_append_drop]; exact hc
      rcases List.mem_append.mp hsplit with hc1 | hc2
      · obtain ⟨h1, h2, _⟩ := hex_char_safe (g2 _ hc1)
        exact ⟨h1, h2⟩
      · rcases g3 with hd | ⟨ext, hd, halnum⟩
        · rw [hd] at hc2; simp at hc2
        · rw [hd] at hc2
          rcases List.mem_cons.mp hc2 with rfl | hc3
          · exact ⟨by decide, by decide⟩
          · exact alnum_char_safe (halnum _ hc3)

end Main

/-! Concrete example frames and streams used by counterexamples and
witnesses. -/

/-- A black pixel. -/
def pixBlack : RGB := ⟨0, 0, 0⟩

/-- A mid-gray pixel. -/
def pixGray : RGB := ⟨128, 128, 128⟩

/-- A one-pixel black frame. -/
def imgBlack : Image := [pixBlack]

/-- A one-pixel mid-gray frame. -/
def imgGray : Image := [pixGray]

/-- A stream whose first decoded frame is a non-keyframe black frame and
whose only keyframe is the gray frame. -/
def exPackets : List (Packet Image) :=
  [⟨0, [⟨false, imgBlack⟩, ⟨true, imgGray⟩]⟩]

/-- An example mp4 file holding that stream. -/
def exFile : Main.MediaFile Image :=
  ⟨['m', 'p', '4'], some 0, exPackets,
    .error (.decoding .noFrameExtracted), .error (.decoding .failedToParsePsd)⟩

/-! The claim theorems. -/

/-- C4: after feeding any finite sequence of values to the Online Statistics
Accumulator, mean() equals the arithmetic mean of the observed values,
variance() equals the unbiased sample variance computed by the reference
two-pass algorithm, and variance() is exactly 0 when at most one value was
observed. -/
theorem C4_welford_stats (xs : List ℚ) :
    (runUpdates xs).mean = twoPassMean xs ∧
    (runUpdates xs).variance = twoPassVariance xs ∧
    (xs.length ≤ 1 → (runUpdates xs).variance = 0) :=
  ⟨runUpdates_mean xs, runUpdates_variance xs, runUpdates_variance_small xs⟩

/-- C4 witness: the invariant applied to the concrete sample list 1, 2, 4
(whose two-pass variance evaluates to 7/3) and the zero-variance clause
applied to a singleton list. -/
theorem C4_welford_stats_witness :
    (runUpdates [1, 2, 4]).variance = twoPassVariance [1, 2, 4]
      ∧ twoPassVariance [1, 2, 4] = 7 / 3
      ∧ (runUpdates [(5 : ℚ)]).variance = 0 :=
  ⟨(C4_welford_stats [1, 2, 4]).2.1,
    by norm_num [twoPassVariance, twoPassMean],
    (C4_welford_stats [(5 : ℚ)]).2.2 (by decide)⟩

/-- C5: for every decoded RGB frame the scorer feeds per-pixel luma
0.299 R + 0.587 G + 0.114 B into a brightness accumulator and HSV saturation
of the normalized channels into a saturation accumulator, and returns
stddev(brightness) * mean(saturation) * (1 - |mean(brightness) - 128| / 128),
i.e. the streaming computation equals the reference two-pass formula. -/
theorem C5_frame_score_formula (image : Image) :
    compute_frame_score image = specFrameScore image :=
  compute_frame_score_eq_spec image

/-- C7: the brightness penalty always lies in the unit interval because mean
luma is bounded between 0 and 255; the frame score is therefore nonnegative,
hence strictly above the initial best_score -1 of the selection state, so
the first scored keyframe is always recorded as best candidate by the
non-returning step. -/
theorem C7_score_nonneg_first_retained (image : Image) :
    (0 ≤ brightness_penalty (scoreStats image).1
      ∧ brightness_penalty (scoreStats image).1 ≤ 1)
    ∧ 0 ≤ compute_frame_score image
    ∧ (-1 : ℝ) < compute_frame_score image
    ∧ (∀ (sharp : Image → ℝ) (mk : ℤ) (thS : ℝ) (thSh : Option ℝ),
        stepMiss (movieCfg sharp mk thS thSh) ⟨none, -1, 0⟩ image
          = ⟨some image, compute_frame_score image, 1⟩) := by
  have hpen := brightness_penalty_mem image
  have hnn := compute_frame_score_nonneg image
  have hgt : (-1 : ℝ) < compute_frame_score image :=
    lt_of_lt_of_le (by norm_num) hnn
  refine ⟨hpen, hnn, hgt, ?_⟩
  intro sharp mk thS thSh
  unfold stepMiss movieCfg
  rw [if_pos hgt]
  norm_num

/-- C8: the size preset is the closed enumeration Small, Medium, Large with
bounding boxes (120,120), (300,300), (600,600); every size string other
than small or large, and a missing parameter, resolve to Medium (and the
resolution is a total function, so no error is possible). -/
theorem C8_size_preset :
    (Main.Size.Small.dimensions = (120, 120)
      ∧ Main.Size.Medium.dimensions = (300, 300)
      ∧ Main.Size.Large.dimensions = (600, 600))
    ∧ (∀ s : List Char, s ≠ ['s', 'm', 'a', 'l', 'l'] →
        s ≠ ['l', 'a', 'r', 'g', 'e'] → Main.Size.from_str s = Main.Size.Medium)
    ∧ Main.sizeFromQuery none = Main.Size.Medium
    ∧ (∀ s, Main.sizeFromQuery (some s) = Main.Size.from_str s) := by
  refine ⟨⟨rfl, rfl, rfl⟩, ?_, rfl, fun s => rfl⟩
  intro s h1 h2
  unfold Main.Size.from_str
  split <;> simp_all

/-- C8 witness: the default branch applied to the concrete string gif. -/
theorem C8_size_preset_witness :
    Main.Size.from_str ['g', 'i', 'f'] = Main.Size.Medium :=
  C8_size_preset.2.1 ['g', 'i', 'f'] (by decide) (by decide)

/-- C9: the transport layer maps InvalidKey to 404 and decode and encode
failures to 500; the video errors (no video stream, no frame) surface
through FailedToDecode, therefore also map to 500. -/
theorem C9_error_status_codes :
    (∀ k, (Main.ApiError.invalidKey k).status_code = 404)
    ∧ (∀ e, (Main.ApiError.failedToDecode e).status_code = 500)
    ∧ (∀ e, (Main.ApiError.failedToEncode e).status_code = 500)
    ∧ (Main.ApiError.failedToDecode
        (Main.ImageError.decoding Main.DecodeMsg.noVideoStream)).status_code = 500
    ∧ (Main.ApiError.failedToDecode
        (Main.ImageError.decoding Main.DecodeMsg.noFrameExtracted)).status_code = 500
    ∧ (∀ (Img : Type) (f : Main.MediaFile Img),
        Main.load_image_handle_api_error f
          = (Main.load_image f).mapError Main.ApiError.failedToDecode) :=
  ⟨fun _ => rfl, fun _ => rfl, fun _ => rfl, rfl, rfl, fun _ _ => rfl⟩

/-- C6: a key is accepted exactly when it matches the 32-hex-characters plus
optional dot-and-alphanumeric-extension grammar; a key outside the grammar
is rejected with InvalidKey (a pure result computed before any path is
built); an accepted key resolves to base, two-hex shard, key, and the two
appended components can never make the path escape the base directory. -/
theorem C6_path_from_key_grammar (base_path : List (List Char)) (key : List Char) :
    (Main.path_from_key base_path key = .ok (base_path ++ [key.take 2, key])
      ↔ Main.keyGrammar key = true)
    ∧ (Main.keyGrammar key = false →
        Main.path_from_key base_path key = .error (Main.ApiError.invalidKey key))
    ∧ (∀ p, Main.path_from_key base_path key = .ok p →
        p = base_path ++ [key.take 2, key]
          ∧ Main.safeComponent (key.take 2) ∧ Main.safeComponent key) := by
  have herr := fun h => @Main.path_from_key_error_of_not_grammar base_path key h
  have hok := fun h => @Main.path_from_key_ok_of_grammar base_path key h
  refine ⟨⟨?_, hok⟩, herr, ?_⟩
  · intro hokk
    cases hg : Main.keyGrammar key
    · rw [herr hg] at hokk
      cases hokk
    · rfl
  · intro p hp
    cases hg : Main.keyGrammar key
    · rw [herr hg] at hp
      cases hp
    · rw [hok hg] at hp
      cases hp
      obtain ⟨hs1, hs2⟩ := Main.grammar_safeComponents hg
      exact ⟨rfl, hs1, hs2⟩

/-- Eight hex characters spelling deadbeef. -/
def hexBeef : List Char := ['d', 'e', 'a', 'd', 'b', 'e', 'e', 'f']

/-- A well-formed concrete key (32 hex characters) with extension jpg. -/
def keyJpg : List Char :=
  hexBeef ++ hexBeef ++ hexBeef ++ hexBeef ++ ['.', 'j', 'p', 'g']

/-- C6 witness: the acceptance direction applied to the concrete jpg key,
its grammar membership evaluated by decide. -/
theorem C6_path_from_key_grammar_witness :
    Main.path_from_key [] keyJpg = .ok ([] ++ [keyJpg.take 2, keyJpg]) :=
  (C6_path_from_key_grammar [] keyJpg).1.mpr (by decide)

/-- Eight hex characters spelling cafebabe. -/
def hexCafe : List Char := ['c', 'a', 'f', 'e', 'b', 'a', 'b', 'e']

/-- A 32-hex-character key followed by a single trailing dot. -/
def keyTrailingDot : List Char :=
  hexCafe ++ hexCafe ++ hexCafe ++ hexCafe ++ ['.']

/-- C10: a key of 32 hex characters followed by a single trailing dot (an
empty extension) is accepted by path_from_key, the alphanumeric check on the
empty extension passing vacuously, and resolves to base, first two hex
characters, key, like any well-formed key. -/
theorem C10_trailing_dot_accepted (base_path : List (List Char)) :
    Main.path_from_key base_path keyTrailingDot
      = .ok (base_path ++ [['c', 'a'], keyTrailingDot]) := rfl

/-- C1 counterexample: on an mp4 file whose stream starts with a
non-keyframe black frame followed by a gray keyframe, the dispatcher's video
path (main.rs load_image_from_movie_keyframe) returns the first decoded
frame, while the Selector of movie_keyframe.rs (max_keyframes 10, score
threshold 1, no sharpness threshold) scores only the keyframe and returns
it: the two loaders disagree on the same input stream. -/
theorem C1_dispatcher_not_selector :
    Main.load_image exFile = .ok imgBlack
    ∧ MovieKeyframe.load_image_from_movie_keyframe (fun _ => 0) 10 1 none
        (some 0) exPackets = .ok imgGray
    ∧ imgBlack ≠ imgGray := by
  refine ⟨rfl, ?_, by decide⟩
  have hscore : compute_frame_score imgGray = 0 := compute_frame_score_single pixGray
  set cfg := movieCfg (fun _ => 0) 10 1 none with hcfg
  have hsr : shouldReturn cfg imgGray = false := by
    rw [shouldReturn_eq_false_iff]
    left
    show compute_frame_score imgGray < 1
    rw [hscore]
    norm_num
  have hstep : scanStep cfg (⟨none, -1, 0⟩ : SelState ℝ Image) imgGray
      = .next (stepMiss cfg ⟨none, -1, 0⟩ imgGray) := by
    refine scanStep_of_not_return hsr ?_
    show (0 : ℤ) + 1 < 10
    norm_num
  have hbest : stepMiss cfg (⟨none, -1, 0⟩ : SelState ℝ Image) imgGray
      = ⟨some imgGray, compute_frame_score imgGray, 1⟩ := by
    unfold stepMiss
    rw [if_pos]
    · rfl
    · show (-1 : ℝ) < compute_frame_score imgGray
      rw [hscore]
      norm_num
  have hload : MovieKeyframe.load_image_from_movie_keyframe (fun _ => 0) 10 1 none
      (some 0) exPackets = runPackets cfg 0 ⟨none, -1, 0⟩ exPackets := rfl
  rw [hload]
  rw [show runPackets cfg 0 ⟨none, -1, 0⟩ exPackets
      = scanAll cfg ⟨none, -1, 0⟩ (flattenKF 0 exPackets) from
    runPackets_eq_scanAll cfg 0 exPackets ⟨none, -1, 0⟩ (by show (0 : ℤ) < 10; norm_num)]
  rw [show flattenKF 0 exPackets = [imgGray] from rfl]
  unfold scanAll scanList
  rw [hstep, hbest]
  rfl

/-- C1 amended: for every file whose lowercased extension is mp4, webm or
mov, the dispatcher routes decoding to the first-decoded-frame loader
defined in main.rs itself, which returns the first decoded frame of the
selected stream regardless of keyframe flags and without any scoring (and
errors only when the stream yields no frame at all); it is not the Selector
of movie_keyframe.rs. -/
theorem C1_dispatcher_first_frame {Img : Type} (f : Main.MediaFile Img)
    (h : f.ext.map Char.toLower = ['m', 'p', '4']
       ∨ f.ext.map Char.toLower = ['w', 'e', 'b', 'm']
       ∨ f.ext.map Char.toLower = ['m', 'o', 'v']) :
    Main.load_image f
        = Main.load_image_from_movie_keyframe f.videoStreamIndex f.packets
    ∧ (∀ (vidx : ℕ) (ps : List (Packet Img)),
        Main.loopPackets vidx ps
          = match (Main.decodedImages vidx ps).head? with
            | some img => .ok img
            | none => .error (.decoding .noFrameExtracted)) := by
  constructor
  · unfold Main.load_image
    rcases h with h | h | h <;> rw [h] <;> rfl
  · intro vidx ps
    exact Main.loopPackets_eq_head vidx ps

/-- C1 amended witness: the routing applied to the concrete example mp4
file, whose video path indeed returns the non-keyframe first frame. -/
theorem C1_dispatcher_first_frame_witness :
    Main.load_image exFile
      = Main.load_image_from_movie_keyframe exFile.videoStreamIndex exFile.packets :=
  (C1_dispatcher_first_frame exFile (Or.inl (by decide))).1

/-- C2: when the keyframes before position k never satisfy the threshold
condition and the k-th keyframe does (score at least threshold_score and,
when a sharpness threshold is configured, also sharpness at least that
threshold), the Selector returns exactly that keyframe's image whatever
keyframes follow it; and when only the score threshold is met while the
configured sharpness threshold is not, the frame is not returned and
scanning continues from the best-updated state. -/
theorem C2_selector_short_circuit (sharp : Image → ℝ) (vidx : ℕ)
    (ps : List (Packet Image)) (max_keyframes : ℤ) (threshold_score : ℝ)
    (threshold_sharpness : Option ℝ) (pre : List Image) (img : Image)
    (rest : List Image)
    (hsplit : flattenKF vidx ps = pre ++ img :: rest)
    (hpre : ∀ x ∈ pre, compute_frame_score x < threshold_score
        ∨ ∃ t, threshold_sharpness = some t ∧ sharp x < t)
    (hcap : (pre.length : ℤ) < max_keyframes)
    (hq : threshold_score ≤ compute_frame_score img
        ∧ ∀ t, threshold_sharpness = some t → t ≤ sharp img) :
    MovieKeyframe.load_image_from_movie_keyframe sharp max_keyframes
        threshold_score threshold_sharpness (some vidx) ps = .ok img
    ∧ (∀ (st : SelState ℝ Image) (x : Image) (l : List Image) (t : ℝ),
        threshold_sharpness = some t →
        threshold_score ≤ compute_frame_score x →
        sharp x < t →
        (stepMiss (movieCfg sharp max_keyframes threshold_score threshold_sharpness)
            st x).frameIndex < max_keyframes →
        scanList (movieCfg sharp max_keyframes threshold_score threshold_sharpness)
            st (x :: l)
          = scanList (movieCfg sharp max_keyframes threshold_score threshold_sharpness)
              (stepMiss (movieCfg sharp max_keyframes threshold_score threshold_sharpness)
                st x) l) := by
  set cfg := movieCfg sharp max_keyframes threshold_score threshold_sharpness with hcfg
  constructor
  · have hload : MovieKeyframe.load_image_from_movie_keyframe sharp max_keyframes
        threshold_score threshold_sharpness (some vidx) ps
        = runPackets cfg vidx ⟨none, -1, 0⟩ ps := rfl
    rw [hload]
    rw [show runPackets cfg vidx ⟨none, -1, 0⟩ ps
        = scanAll cfg ⟨none, -1, 0⟩ (flattenKF vidx ps) from
      runPackets_eq_scanAll cfg vidx ps ⟨none, -1, 0⟩ (by show (0 : ℤ) < max_keyframes; omega)]
    rw [hsplit]
    unfold scanAll
    rw [scanList_skip cfg pre (img :: rest) ⟨none, -1, 0⟩ ?hpre ?hlen]
    case hpre =>
      intro x hx
      rw [shouldReturn_eq_false_iff]
      exact hpre x hx
    case hlen =>
      show (0 : ℤ) + (pre.length : ℤ) < max_keyframes
      omega
    have hsr : shouldReturn cfg img = true := by
      rw [shouldReturn_eq_true_iff]
      exact hq
    have hfound : scanList cfg (pre.foldl (stepMiss cfg) ⟨none, -1, 0⟩)
        (img :: rest) = .found img := by
      unfold scanList scanStep
      rw [hsr]
      rfl
    rw [hfound]
  · intro st x l t hts hsc hsh hlt
    have hx : shouldReturn cfg x = false := by
      rw [shouldReturn_eq_false_iff]
      right
      exact ⟨t, hts, hsh⟩
    rw [stepMiss_frameIndex] at hlt
    have hstep := scanStep_of_not_return hx hlt
    unfold scanList
    rw [hstep]
    cases l <;> rfl

/-- C2 witness: a stream with a single gray keyframe immediately meeting
score threshold 0 with no sharpness threshold; the Selector returns it at
once. -/
theorem C2_selector_short_circuit_witness :
    MovieKeyframe.load_image_from_movie_keyframe (fun _ => 0) 5 0 none
      (some 0) [⟨0, [⟨true, imgGray⟩]⟩] = .ok imgGray := by
  have hg : compute_frame_score imgGray = 0 := compute_frame_score_single pixGray
  have h := C2_selector_short_circuit (fun _ => 0) 0 [⟨0, [⟨true, imgGray⟩]⟩]
    5 0 none [] imgGray [] rfl
    (fun x hx => absurd hx (List.not_mem_nil x))
    (by norm_num)
    ⟨by rw [hg], fun t ht => by cases ht⟩
  exact h.1

/-- C3: when no keyframe among the examined ones (the first max_keyframes
keyframes of the stream, or all of them when the stream ends first) meets
the threshold condition, the Selector fails with NoSuitableFrame exactly
when zero keyframes were scored, and otherwise returns an examined keyframe
of maximal score. -/
theorem C3_selector_fallback (sharp : Image → ℝ) (vidx : ℕ)
    (ps : List (Packet Image)) (max_keyframes : ℤ) (threshold_score : ℝ)
    (threshold_sharpness : Option ℝ)
    (hmk : 1 ≤ max_keyframes)
    (hnoq : ∀ x ∈ (flattenKF vidx ps).take max_keyframes.toNat,
        compute_frame_score x < threshold_score
          ∨ ∃ t, threshold_sharpness = some t ∧ sharp x < t) :
    (MovieKeyframe.load_image_from_movie_keyframe sharp max_keyframes
          threshold_score threshold_sharpness (some vidx) ps
        = .error MovieError.noSuitableFrame
      ↔ (flattenKF vidx ps).take max_keyframes.toNat = [])
    ∧ ((flattenKF vidx ps).take max_keyframes.toNat ≠ [] →
        ∃ img ∈ (flattenKF vidx ps).take max_keyframes.toNat,
          MovieKeyframe.load_image_from_movie_keyframe sharp max_keyframes
              threshold_score threshold_sharpness (some vidx) ps = .ok img
          ∧ ∀ x ∈ (flattenKF vidx ps).take max_keyframes.toNat,
              compute_frame_score x ≤ compute_frame_score img) := by
  set cfg := movieCfg sharp max_keyframes threshold_score threshold_sharpness with hcfg
  have hidx : (cfg.max_keyframes
      - (⟨none, -1, 0⟩ : SelState ℝ Image).frameIndex).toNat
      = max_keyframes.toNat := by
    show (max_keyframes - 0).toNat = max_keyframes.toNat
    omega
  have hload : MovieKeyframe.load_image_from_movie_keyframe sharp max_keyframes
      threshold_score threshold_sharpness (some vidx) ps
      = finish (((flattenKF vidx ps).take max_keyframes.toNat).foldl
          (stepMiss cfg) ⟨none, -1, 0⟩) := by
    have hload0 : MovieKeyframe.load_image_from_movie_keyframe sharp max_keyframes
        threshold_score threshold_sharpness (some vidx) ps
        = runPackets cfg vidx ⟨none, -1, 0⟩ ps := rfl
    rw [hload0]
    rw [show runPackets cfg vidx ⟨none, -1, 0⟩ ps
        = scanAll cfg ⟨none, -1, 0⟩ (flattenKF vidx ps) from
      runPackets_eq_scanAll cfg vidx ps ⟨none, -1, 0⟩ (by show (0 : ℤ) < max_keyframes; omega)]
    rw [scanAll_no_return cfg (flattenKF vidx ps) ⟨none, -1, 0⟩
      (by show (0 : ℤ) < max_keyframes; omega) ?hnr]
    · rw [hidx]
    case hnr =>
      rw [hidx]
      intro x hx
      rw [shouldReturn_eq_false_iff]
      exact hnoq x hx
  rcases foldl_stepMiss_best cfg ((flattenKF vidx ps).take max_keyframes.toNat)
      ⟨none, -1, 0⟩ with ⟨h1, h2, h3⟩ | ⟨img, hmem, h1, h2, h3, h4⟩
  · have htnil : (flattenKF vidx ps).take max_keyframes.toNat = [] := by
      cases htk : (flattenKF vidx ps).take max_keyframes.toNat with
      | nil => rfl
      | cons y ys =>
          exfalso
          have hy : y ∈ (flattenKF vidx ps).take max_keyframes.toNat := by
            rw [htk]
            exact List.mem_cons_self _ _
          have hle : compute_frame_score y ≤ (-1 : ℝ) := h3 y hy
          have hnn := compute_frame_score_nonneg y
          linarith
    constructor
    · rw [hload, htnil]
      simp [finish]
    · intro hne
      exact absurd htnil hne
  · have himg : finish (((flattenKF vidx ps).take max_keyframes.toNat).foldl
        (stepMiss cfg) ⟨none, -1, 0⟩) = .ok img := by
      unfold finish
      rw [h1]
    constructor
    · rw [hload, himg]
      constructor
      · intro h
        cases h
      · intro h
        rw [h] at hmem
        exact absurd hmem (List.not_mem_nil _)
    · intro hne
      exact ⟨img, hmem, by rw [hload, himg], fun x hx => h4 x hx⟩

/-- C3 witness: a stream with one gray keyframe that stays below score
threshold 1; the fallback returns that single examined keyframe as the
best-scored candidate. -/
theorem C3_selector_fallback_witness :
    ∃ img ∈ (flattenKF 0 [⟨0, [⟨true, imgGray⟩]⟩] : List Image).take (5 : ℤ).toNat,
      MovieKeyframe.load_image_from_movie_keyframe (fun _ => 0) 5 1 none
          (some 0) [⟨0, [⟨true, imgGray⟩]⟩] = .ok img
        ∧ ∀ x ∈ (flattenKF 0 [⟨0, [⟨true, imgGray⟩]⟩] : List Image).take (5 : ℤ).toNat,
            compute_frame_score x ≤ compute_frame_score img := by
  have hg : compute_frame_score imgGray = 0 := compute_frame_score_single pixGray
  have htk : (flattenKF 0 [⟨0, [⟨true, imgGray⟩]⟩] : List Image).take (5 : ℤ).toNat
      = [imgGray] := rfl
  refine (C3_selector_fallback (fun _ => 0) 0 [⟨0, [⟨true, imgGray⟩]⟩] 5 1 none
    (by norm_num) ?_).2 ?_
  · intro x hx
    rw [htk] at hx
    have hx2 : x = imgGray := List.mem_singleton.mp hx
    left
    rw [hx2, hg]
    norm_num
  · rw [htk]
    simp

end MediaConv
